import Mathlib

/-!
Verification of the prefixed-api-key library (Rust sources under src/).
Rust strings are embedded as `List Char` (Unicode scalar values, matching
Rust `char`); byte slices are embedded as `List Nat` with each entry < 256.
Stateful Rust methods (`&mut self`) are embedded by explicit state passing:
a method returns its result paired with the updated state.
-/

set_option maxRecDepth 10000

/-- UTF-8 encoding of one Unicode scalar value, as produced by Rust's
`str::as_bytes` for a `char`.  Written with `/` and `%` (which agree with the
usual shift-and-mask formulation since the bit ranges are disjoint). -/
def utf8Bytes (c : Char) : List Nat :=
  let n := c.toNat
  if n < 128 then [n]
  else if n < 2048 then [192 + n / 64, 128 + n % 64]
  else if n < 65536 then [224 + n / 4096, 128 + n / 64 % 64, 128 + n % 64]
  else [240 + n / 262144, 128 + n / 4096 % 64, 128 + n / 64 % 64, 128 + n % 64]

/-- UTF-8 bytes of a whole string: Rust's `String::as_bytes`. -/
def strBytes (s : List Char) : List Nat :=
  (s.map utf8Bytes).flatten

/-- Lowercase hexadecimal digit for a value below 16: `hex::encode`'s alphabet. -/
def hexDigitChar (n : Nat) : Char :=
  if n < 10 then Char.ofNat (48 + n) else Char.ofNat (87 + n)

/-- Lowercase hexadecimal text of a byte string, as `hex::encode` produces. -/
def hexEncode (bs : List Nat) : List Char :=
  (bs.map fun b => [hexDigitChar (b / 16), hexDigitChar (b % 16)]).flatten

/-- Constant-time byte-slice comparison from `crypto::util::fixed_time_eq`:
unequal lengths give `false`; otherwise the bitwise or of the pointwise xors
is compared with zero. -/
def fixed_time_eq (lhs rhs : List Nat) : Bool :=
  if lhs.length ≠ rhs.length then false
  else ((lhs.zip rhs).foldl (fun acc p => acc ||| (p.1 ^^^ p.2)) 0) == 0

/-- Fuel-driven base-`b` digit extraction (least significant digit first).
The fuel argument makes the recursion structural; `natDigits` instantiates
the fuel with the number itself, which always suffices. -/
def natDigitsAux (b : Nat) : Nat → Nat → List Nat
  | _, 0 => []
  | 0, _ + 1 => []
  | fuel + 1, n + 1 => (n + 1) % b :: natDigitsAux b fuel ((n + 1) / b)

/-- Base-`b` digits of `n`, least significant first; `natDigits b 0 = []`. -/
def natDigits (b n : Nat) : List Nat :=
  natDigitsAux b n n

/-- Big-endian value of a digit string in base `b` (Horner evaluation). -/
def beVal (b : Nat) (l : List Nat) : Nat :=
  l.foldl (fun acc d => acc * b + d) 0

/-- Alphabet of the `bs58` crate (Bitcoin base58). -/
def BASE58_ALPHABET : List Char :=
  "123456789ABCDEFGHJKLMNPQRSTUVWXYZabcdefghijkmnopqrstuvwxyz".toList

/-- Base58 encoding as the `bs58` crate computes it (`bs58::encode(bytes).into_string()`):
each leading zero byte becomes the first alphabet character `1`, and the
remaining bytes, read as one big-endian integer, are written in base 58,
most significant digit first. -/
def bs58_encode (bytes : List Nat) : List Char :=
  let zeros := (bytes.takeWhile (· == 0)).length
  let n := beVal 256 bytes
  List.replicate zeros '1' ++ ((natDigits 58 n).reverse.map fun d => BASE58_ALPHABET[d]!)

/-- Index of a character in the base58 alphabet, `none` for foreign characters. -/
def b58CharIndex (c : Char) : Option Nat :=
  let i := BASE58_ALPHABET.findIdx (· == c)
  if i < BASE58_ALPHABET.length then some i else none

/-- Base58 decoding as the `bs58` crate computes it: every character must be
in the alphabet, each leading `1` becomes one zero byte, and the digit string,
read as one big-endian base-58 integer, is written in base 256, most
significant byte first. -/
def bs58_decode (s : List Char) : Option (List Nat) :=
  (s.mapM b58CharIndex).map fun vals =>
    List.replicate (vals.takeWhile (· == 0)).length 0
      ++ (natDigits 256 (beVal 58 vals)).reverse

/-- The digest capability (the `digest::Digest + FixedOutputReset` bound):
a fresh state, incremental absorption of bytes, and a finalization function
from states to output bytes. -/
structure DigestSpec (σ : Type) where
  init : σ
  update : σ → List Nat → σ
  final : σ → List Nat

/-- Models `digest.finalize_reset()`: the output of the current state is
returned and the state is put back to fresh. -/
def DigestSpec.finalize_reset {σ : Type} (D : DigestSpec σ) (s : σ) : List Nat × σ :=
  (D.final s, D.init)

/-- The randomness capability (the `rand::RngCore` bound): `fill_bytes`
fills a buffer of the requested length with bytes.  The two laws record what
Rust guarantees structurally: the buffer has exactly the requested length and
holds `u8` values. -/
structure RngSpec (ρ : Type) where
  fill_bytes : ρ → Nat → List Nat × ρ
  fill_len : ∀ s n, (fill_bytes s n).1.length = n
  fill_lt : ∀ s n, ∀ b ∈ (fill_bytes s n).1, b < 256

/-- Error type of `PrefixedApiKey::from_string` (src/prefixed_api_key.rs). -/
inductive PrefixedApiKeyError where
  | WrongNumberOfParts (n : Nat)
deriving DecidableEq, Repr

/-- The three-part credential (src/prefixed_api_key.rs).  The Rust field
`prefix` is called `pfx` here because `prefix` is a Lean keyword. -/
structure PrefixedApiKey where
  pfx : List Char
  short_token : List Char
  long_token : List Char
deriving DecidableEq, Repr

/-- Models `PrefixedApiKey::new`: plain construction, no validation. -/
def PrefixedApiKey.new (pfx short_token long_token : List Char) : PrefixedApiKey :=
  ⟨pfx, short_token, long_token⟩

/-- Models `PrefixedApiKey::long_token_hashed` (src/prefixed_api_key.rs:60-63):
feed the long token's bytes to the digest, then `finalize_reset`, and render
the output as lowercase hex.  The updated digest state is returned alongside. -/
def PrefixedApiKey.long_token_hashed {σ : Type} (k : PrefixedApiKey)
    (D : DigestSpec σ) (s : σ) : List Char × σ :=
  let s1 := D.update s (strBytes k.long_token)
  let r := D.finalize_reset s1
  (hexEncode r.1, r.2)

/-- Models `PrefixedApiKey::from_string` (src/prefixed_api_key.rs:68-81):
split on `'_'`, demand exactly 3 parts, assign them positionally. -/
def PrefixedApiKey.from_string (pak_string : List Char) :
    Except PrefixedApiKeyError PrefixedApiKey :=
  let parts := pak_string.splitOn '_'
  if h : parts.length = 3 then
    .ok (PrefixedApiKey.new parts[0] parts[1] parts[2])
  else
    .error (PrefixedApiKeyError.WrongNumberOfParts parts.length)

/-- Models the `ToString` impl (src/prefixed_api_key.rs:100-104):
`format!("{}_{}_{}", prefix, short_token, long_token)`. -/
def PrefixedApiKey.to_string (k : PrefixedApiKey) : List Char :=
  k.pfx ++ ['_'] ++ k.short_token ++ ['_'] ++ k.long_token

/-- Models the custom `Debug` impl (src/prefixed_api_key.rs:86-94), which
renders the struct with the long token replaced by the literal mask `***`.
The exact text matches the `check_debug_display_hides_secret_token` test. -/
def PrefixedApiKey.debugFmt (k : PrefixedApiKey) : List Char :=
  ("PrefixedApiKey \x7b prefix: \"").toList ++ k.pfx
    ++ ("\", short_token: \"").toList ++ k.short_token
    ++ ("\", long_token: \"***\" \x7d").toList

/-- Models the `Display` impl of the historical variant (src/lib.rs:154-159):
`"{}_{}_***"` over prefix and short token. -/
def PrefixedApiKey.displayFmt (k : PrefixedApiKey) : List Char :=
  k.pfx ++ ['_'] ++ k.short_token ++ ("_***").toList

/-- Configuration aggregate of the historical variant (src/lib.rs:5-10). -/
structure GeneratorOptions where
  short_token_pfx : Option (List Char)
  short_token_length : Nat
  long_token_length : Nat
deriving DecidableEq, Repr

/-- Models `GeneratorOptions::default` (src/lib.rs:29-37). -/
def GeneratorOptions.default : GeneratorOptions :=
  ⟨none, 8, 24⟩

/-- Models the setter `GeneratorOptions::short_token_prefix` (src/lib.rs:13-16). -/
def GeneratorOptions.set_short_token_pfx (o : GeneratorOptions)
    (value : Option (List Char)) : GeneratorOptions :=
  { o with short_token_pfx := value }

/-- Models the setter `GeneratorOptions::short_token_length` (src/lib.rs:18-21). -/
def GeneratorOptions.set_short_token_length (o : GeneratorOptions)
    (value : Nat) : GeneratorOptions :=
  { o with short_token_length := value }

/-- Models the setter `GeneratorOptions::long_token_length` (src/lib.rs:23-26).
The Rust body is `self.short_token_length = value; self`: it assigns the
`short_token_length` field, not `long_token_length`. -/
def GeneratorOptions.set_long_token_length (o : GeneratorOptions)
    (value : Nat) : GeneratorOptions :=
  { o with short_token_length := value }

/-- The generator/controller (src/controller.rs:447-455), holding the owned
rng state and digest state.  The Rust field `prefix` is called `pfx` here. -/
structure PrefixedApiKeyController (ρ σ : Type) where
  pfx : List Char
  rng : ρ
  digest : σ
  short_token_pfx : Option (List Char)
  short_token_length : Nat
  long_token_length : Nat

/-- Models `PrefixedApiKeyController::new` (src/controller.rs:458-474). -/
def PrefixedApiKeyController.new {ρ σ : Type} (pfx : List Char) (rng : ρ) (digest : σ)
    (short_token_pfx : Option (List Char)) (short_token_length long_token_length : Nat) :
    PrefixedApiKeyController ρ σ :=
  ⟨pfx, rng, digest, short_token_pfx, short_token_length, long_token_length⟩

/-- Models `get_random_bytes` (src/controller.rs:483-490): draw `length`
bytes from the rng, advancing its state. -/
def PrefixedApiKeyController.get_random_bytes {ρ σ : Type} (R : RngSpec ρ)
    (C : PrefixedApiKeyController ρ σ) (length : Nat) :
    List Nat × PrefixedApiKeyController ρ σ :=
  let r := R.fill_bytes C.rng length
  (r.1, { C with rng := r.2 })

/-- Models `get_random_token` (src/controller.rs:495-498): base58-encode
`length` freshly drawn random bytes. -/
def PrefixedApiKeyController.get_random_token {ρ σ : Type} (R : RngSpec ρ)
    (C : PrefixedApiKeyController ρ σ) (length : Nat) :
    List Char × PrefixedApiKeyController ρ σ :=
  let r := PrefixedApiKeyController.get_random_bytes R C length
  (bs58_encode r.1, r.2)

/-- Models `generate_key` (src/controller.rs:504-523): draw the short token,
truncate `(short token prefix ++ token)` to `short_token_length` characters
when a short token prefix is configured, draw the long token, build the key. -/
def PrefixedApiKeyController.generate_key {ρ σ : Type} (R : RngSpec ρ)
    (C : PrefixedApiKeyController ρ σ) :
    PrefixedApiKey × PrefixedApiKeyController ρ σ :=
  let r1 := PrefixedApiKeyController.get_random_token R C C.short_token_length
  let short_token : List Char :=
    match C.short_token_pfx with
    | some p => ((p ++ r1.1).take C.short_token_length)
    | none => r1.1
  let r2 := PrefixedApiKeyController.get_random_token R r1.2 C.long_token_length
  (PrefixedApiKey.new C.pfx short_token r2.1, r2.2)

/-- Models the controller's `long_token_hashed` (src/controller.rs:537-539):
delegates to the key's hashing with the controller's reusable digest. -/
def PrefixedApiKeyController.long_token_hashed {ρ σ : Type} (D : DigestSpec σ)
    (C : PrefixedApiKeyController ρ σ) (pak : PrefixedApiKey) :
    List Char × PrefixedApiKeyController ρ σ :=
  let r := pak.long_token_hashed D C.digest
  (r.1, { C with digest := r.2 })

/-- Models `generate_key_and_hash` (src/controller.rs:527-531). -/
def PrefixedApiKeyController.generate_key_and_hash {ρ σ : Type} (R : RngSpec ρ)
    (D : DigestSpec σ) (C : PrefixedApiKeyController ρ σ) :
    (PrefixedApiKey × List Char) × PrefixedApiKeyController ρ σ :=
  let r := PrefixedApiKeyController.generate_key R C
  let h := PrefixedApiKeyController.long_token_hashed D r.2 r.1
  ((r.1, h.1), h.2)

/-- Models `check_hash` (src/controller.rs:545-548): recompute the hash of
the key's long token and compare with `fixed_time_eq` over the UTF-8 bytes. -/
def PrefixedApiKeyController.check_hash {ρ σ : Type} (D : DigestSpec σ)
    (C : PrefixedApiKeyController ρ σ) (pak : PrefixedApiKey) (hash : List Char) :
    Bool × PrefixedApiKeyController ρ σ :=
  let r := PrefixedApiKeyController.long_token_hashed D C pak
  (fixed_time_eq (strBytes r.1) (strBytes hash), r.2)

/-- Error type of the builder (src/controller_builder.rs:14-21), one named
variant per missing required field. -/
inductive BuilderError where
  | MissingPrefix
  | MissingRng
  | MissingDigest
  | MissingShortTokenLength
  | MissingLongTokenLength
deriving DecidableEq, Repr

/-- The configuration accumulator (src/controller_builder.rs:41-48). -/
structure ControllerBuilder (ρ σ : Type) where
  pfx : Option (List Char)
  rng : Option ρ
  digest : Option σ
  short_token_pfx : Option (List Char)
  short_token_length : Option Nat
  long_token_length : Option Nat

/-- Models `ControllerBuilder::new` (src/controller_builder.rs:51-60): every
field starts unset. -/
def ControllerBuilder.new {ρ σ : Type} : ControllerBuilder ρ σ :=
  ⟨none, none, none, none, none, none⟩

/-- Models `ControllerBuilder::finalize` (src/controller_builder.rs:64-93):
the required fields are checked in the fixed source order, the first missing
one is reported, and the controller is built from the unwrapped values. -/
def ControllerBuilder.finalize {ρ σ : Type} (B : ControllerBuilder ρ σ) :
    Except BuilderError (PrefixedApiKeyController ρ σ) :=
  match B.pfx with
  | none => .error BuilderError.MissingPrefix
  | some p =>
    match B.rng with
    | none => .error BuilderError.MissingRng
    | some r =>
      match B.digest with
      | none => .error BuilderError.MissingDigest
      | some d =>
        match B.short_token_length with
        | none => .error BuilderError.MissingShortTokenLength
        | some stl =>
          match B.long_token_length with
          | none => .error BuilderError.MissingLongTokenLength
          | some ltl =>
            .ok (PrefixedApiKeyController.new p r d B.short_token_pfx stl ltl)

/-- Models the builder setter `prefix` (src/controller_builder.rs:102-105). -/
def ControllerBuilder.set_pfx {ρ σ : Type} (B : ControllerBuilder ρ σ)
    (value : List Char) : ControllerBuilder ρ σ :=
  { B with pfx := some value }

/-- Models the builder setter `short_token_length` (src/controller_builder.rs:132-135). -/
def ControllerBuilder.set_short_token_length {ρ σ : Type} (B : ControllerBuilder ρ σ)
    (value : Nat) : ControllerBuilder ρ σ :=
  { B with short_token_length := some value }

/-- Models the builder setter `long_token_length` (src/controller_builder.rs:138-141). -/
def ControllerBuilder.set_long_token_length {ρ σ : Type} (B : ControllerBuilder ρ σ)
    (value : Nat) : ControllerBuilder ρ σ :=
  { B with long_token_length := some value }

/-- A deterministic instance of the randomness capability: every drawn byte
is 0xFF.  Used to evaluate the generator on concrete inputs. -/
def constRng : RngSpec Unit where
  fill_bytes := fun _ n => (List.replicate n 255, ())
  fill_len := by intro s n; simp
  fill_lt := by
    intro s n b hb
    rw [List.eq_of_mem_replicate hb]
    omega

/-! Splitting lemmas used by the parsing claims. -/

theorem splitOn_no_sep {xs : List Char} (h : '_' ∉ xs) : xs.splitOn '_' = [xs] := by
  apply List.splitOnP_eq_single
  intro x hx
  simp only [beq_iff_eq]
  exact fun e => h (e ▸ hx)

theorem splitOn_sep_cons {xs : List Char} (h : '_' ∉ xs) (as : List Char) :
    (xs ++ '_' :: as).splitOn '_' = xs :: as.splitOn '_' := by
  apply List.splitOnP_first
  · intro x hx
    simp only [beq_iff_eq]
    exact fun e => h (e ▸ hx)
  · simp

theorem splitOn_three {p s l : List Char} (hp : '_' ∉ p) (hs : '_' ∉ s) (hl : '_' ∉ l) :
    (p ++ ['_'] ++ s ++ ['_'] ++ l).splitOn '_' = [p, s, l] := by
  have : p ++ ['_'] ++ s ++ ['_'] ++ l = p ++ '_' :: (s ++ '_' :: l) := by
    simp [List.append_assoc]
  rw [this, splitOn_sep_cons hp, splitOn_sep_cons hs, splitOn_no_sep hl]

/-- Claim C2: hashing the same key twice in sequence through the same digest
instance, starting from the fresh state, yields identical hex output both
times, because each `long_token_hashed` call resets the digest state back to
fresh as a side effect. -/
theorem C2_hash_determinism {σ : Type} (D : DigestSpec σ) (k : PrefixedApiKey) :
    (k.long_token_hashed D D.init).2 = D.init ∧
    (k.long_token_hashed D ((k.long_token_hashed D D.init).2)).1
      = (k.long_token_hashed D D.init).1 :=
  ⟨rfl, rfl⟩

/-- Claim C3: for fields free of the `'_'` character, parsing the full
serialization of a key reproduces the key field-for-field. -/
theorem C3_round_trip (p s l : List Char) (hp : '_' ∉ p) (hs : '_' ∉ s) (hl : '_' ∉ l) :
    PrefixedApiKey.from_string (PrefixedApiKey.to_string (PrefixedApiKey.new p s l))
      = Except.ok (PrefixedApiKey.new p s l) := by
  have hsplit : (PrefixedApiKey.to_string (PrefixedApiKey.new p s l)).splitOn '_' = [p, s, l] :=
    splitOn_three hp hs hl
  simp only [PrefixedApiKey.new] at hsplit
  simp [PrefixedApiKey.from_string, hsplit, PrefixedApiKey.new]

/-- Witness for C3 at a concrete key. -/
theorem C3_round_trip_witness :
    PrefixedApiKey.from_string
        (PrefixedApiKey.to_string (PrefixedApiKey.new "abc".toList "de".toList "fg".toList))
      = Except.ok (PrefixedApiKey.new "abc".toList "de".toList "fg".toList) :=
  C3_round_trip _ _ _ (by decide) (by decide) (by decide)

/-- Claim C4: `from_string` succeeds exactly when splitting on `'_'` yields 3
segments, which become the fields positionally; any other count `n` yields a
`WrongNumberOfParts n` error. -/
theorem C4_parse_arity (s : List Char) :
    ((∃ k, PrefixedApiKey.from_string s = Except.ok k) ↔ (s.splitOn '_').length = 3) ∧
    (∀ a b c, s.splitOn '_' = [a, b, c] →
      PrefixedApiKey.from_string s = Except.ok (PrefixedApiKey.new a b c)) ∧
    ((s.splitOn '_').length ≠ 3 →
      PrefixedApiKey.from_string s
        = Except.error (PrefixedApiKeyError.WrongNumberOfParts (s.splitOn '_').length)) := by
  refine ⟨⟨fun ⟨k, hk⟩ => ?_, fun h => ?_⟩, fun a b c habc => ?_, fun h => ?_⟩
  · by_contra h
    simp [PrefixedApiKey.from_string, h] at hk
  · obtain ⟨a, b, c, habc⟩ := List.length_eq_three.mp h
    refine ⟨PrefixedApiKey.new a b c, ?_⟩
    simp [PrefixedApiKey.from_string, h, habc, PrefixedApiKey.new]
  · have h3 : (s.splitOn '_').length = 3 := by rw [habc]; rfl
    simp [PrefixedApiKey.from_string, h3, habc, PrefixedApiKey.new]
  · simp [PrefixedApiKey.from_string, h]

/-- Witness for C4: `"a_b_c_d"` has 4 segments and fails with count 4. -/
theorem C4_parse_arity_witness :
    PrefixedApiKey.from_string "a_b_c_d".toList
      = Except.error (PrefixedApiKeyError.WrongNumberOfParts 4) := by
  have h4 : (("a_b_c_d".toList).splitOn '_').length = 4 := by decide
  have h := (C4_parse_arity "a_b_c_d".toList).2.2 (by decide)
  rw [h4] at h
  exact h

/-- Claim C7: `finalize` checks prefix, rng, digest, short token length and
long token length in that fixed order, reports the first missing field with
its own named error, and builds the controller exactly when all five are set
(the short token prefix may stay unset and passes through). -/
theorem C7_finalize_first_missing {ρ σ : Type} (B : ControllerBuilder ρ σ) :
    (B.pfx = none → B.finalize = Except.error BuilderError.MissingPrefix) ∧
    (B.pfx.isSome → B.rng = none → B.finalize = Except.error BuilderError.MissingRng) ∧
    (B.pfx.isSome → B.rng.isSome → B.digest = none →
      B.finalize = Except.error BuilderError.MissingDigest) ∧
    (B.pfx.isSome → B.rng.isSome → B.digest.isSome → B.short_token_length = none →
      B.finalize = Except.error BuilderError.MissingShortTokenLength) ∧
    (B.pfx.isSome → B.rng.isSome → B.digest.isSome → B.short_token_length.isSome →
      B.long_token_length = none →
      B.finalize = Except.error BuilderError.MissingLongTokenLength) ∧
    (∀ p r d stl ltl, B.pfx = some p → B.rng = some r → B.digest = some d →
      B.short_token_length = some stl → B.long_token_length = some ltl →
      B.finalize = Except.ok (PrefixedApiKeyController.new p r d B.short_token_pfx stl ltl)) := by
  obtain ⟨pf, rg, dg, sp, sl, ll⟩ := B
  cases pf <;> cases rg <;> cases dg <;> cases sl <;> cases ll <;>
    simp [ControllerBuilder.finalize, PrefixedApiKeyController.new] <;>
    exact fun p r d stl ltl h1 h2 h3 h4 h5 => ⟨h1, h2, h3, h4, h5⟩

/-- Witness for C7: the fresh builder fails with the missing-prefix error, and
a fully configured builder succeeds. -/
theorem C7_finalize_first_missing_witness :
    (ControllerBuilder.new : ControllerBuilder Unit Unit).finalize
        = Except.error BuilderError.MissingPrefix ∧
    (ControllerBuilder.mk (some ['m']) (some ()) (some ()) none (some 4) (some 500)
        : ControllerBuilder Unit Unit).finalize
        = Except.ok (PrefixedApiKeyController.new ['m'] () () none 4 500) := by
  constructor
  · exact (C7_finalize_first_missing ControllerBuilder.new).1 rfl
  · exact (C7_finalize_first_missing _).2.2.2.2.2 ['m'] () () 4 500 rfl rfl rfl rfl rfl

/-- Claim C8: the claim says every length setter writes only its own field.
The `ControllerBuilder` setters do, but `GeneratorOptions::long_token_length`
(src/lib.rs:23-26) assigns the `short_token_length` field instead: evaluating
it at the failing input shows `short_token_length` becomes 99 while
`long_token_length` stays 24. -/
theorem C8_long_setter_evaluation :
    (GeneratorOptions.default.set_long_token_length 99).short_token_length = 99 ∧
    (GeneratorOptions.default.set_long_token_length 99).long_token_length = 24 :=
  ⟨rfl, rfl⟩

/-- Claim C9: both masked representations are independent of the long token
(so keys differing only there render identically), while the full
serialization still distinguishes them. -/
theorem C9_debug_masks_long_token (p s l1 l2 : List Char) :
    PrefixedApiKey.debugFmt (PrefixedApiKey.new p s l1)
        = PrefixedApiKey.debugFmt (PrefixedApiKey.new p s l2) ∧
    PrefixedApiKey.displayFmt (PrefixedApiKey.new p s l1)
        = PrefixedApiKey.displayFmt (PrefixedApiKey.new p s l2) ∧
    (l1 ≠ l2 →
      PrefixedApiKey.to_string (PrefixedApiKey.new p s l1)
        ≠ PrefixedApiKey.to_string (PrefixedApiKey.new p s l2)) := by
  refine ⟨rfl, rfl, fun hne heq => hne ?_⟩
  exact List.append_cancel_left heq

/-- Witness for C9 at concrete keys differing only in the long token. -/
theorem C9_debug_masks_long_token_witness :
    PrefixedApiKey.to_string (PrefixedApiKey.new ['p'] ['s'] ['x'])
      ≠ PrefixedApiKey.to_string (PrefixedApiKey.new ['p'] ['s'] ['y']) :=
  (C9_debug_masks_long_token ['p'] ['s'] ['x'] ['y']).2.2 (by decide)

/-- Claim C10: on every accepted input, full serialization is a left inverse
of parsing: `from_string s = ok k` implies `to_string k = s`. -/
theorem C10_to_full_string_left_inverse (s : List Char) (k : PrefixedApiKey)
    (h : PrefixedApiKey.from_string s = Except.ok k) :
    PrefixedApiKey.to_string k = s := by
  by_cases h3 : (s.splitOn '_').length = 3
  · obtain ⟨a, b, c, habc⟩ := List.length_eq_three.mp h3
    have hk : PrefixedApiKey.new a b c = k := by
      simpa [PrefixedApiKey.from_string, h3, habc] using h
    have hs : ['_'].intercalate (s.splitOn '_') = s := List.intercalate_splitOn s '_'
    rw [habc] at hs
    rw [← hk]
    simpa [PrefixedApiKey.to_string, PrefixedApiKey.new, List.intercalate,
      List.intersperse, List.append_assoc] using hs
  · simp [PrefixedApiKey.from_string, h3] at h

/-- Witness for C10 at a concrete accepted input. -/
theorem C10_to_full_string_left_inverse_witness :
    PrefixedApiKey.to_string (PrefixedApiKey.new ['a'] ['b'] ['c']) = "a_b_c".toList :=
  C10_to_full_string_left_inverse "a_b_c".toList (PrefixedApiKey.new ['a'] ['b'] ['c'])
    (by rfl)

/-! Facts about `fixed_time_eq`: it decides byte-string equality. -/

theorem nat_lor_eq_zero {a b : Nat} (h : a ||| b = 0) : a = 0 ∧ b = 0 := by
  constructor <;> apply Nat.eq_of_testBit_eq <;> intro i <;>
    have hi := congrArg (fun x => Nat.testBit x i) h <;>
    simp only [Nat.testBit_lor, Nat.zero_testBit, Bool.or_eq_false_iff] at hi <;>
    simp [hi.1, hi.2]

theorem foldl_or_xor_eq_zero (l : List (Nat × Nat)) (acc : Nat) :
    l.foldl (fun acc p => acc ||| (p.1 ^^^ p.2)) acc = 0
      ↔ acc = 0 ∧ ∀ p ∈ l, p.1 ^^^ p.2 = 0 := by
  induction l generalizing acc with
  | nil => simp
  | cons h t ih =>
    simp only [List.foldl_cons, ih, List.mem_cons]
    constructor
    · rintro ⟨h1, h2⟩
      obtain ⟨ha, hg⟩ := nat_lor_eq_zero h1
      exact ⟨ha, fun p hp => hp.elim (fun e => e ▸ hg) (h2 p)⟩
    · rintro ⟨ha, hg⟩
      refine ⟨?_, fun p hp => hg p (Or.inr hp)⟩
      rw [ha, hg h (Or.inl rfl)]
      simp

theorem mem_zip_self {l : List Nat} {p : Nat × Nat} (hp : p ∈ l.zip l) : p.1 = p.2 := by
  induction l with
  | nil => simp at hp
  | cons x xs ih =>
    rw [List.zip_cons_cons] at hp
    rcases List.mem_cons.mp hp with h | h
    · rw [h]
    · exact ih h

theorem zip_xor_eq {a b : List Nat} (hlen : a.length = b.length)
    (h : ∀ p ∈ a.zip b, p.1 ^^^ p.2 = 0) : a = b := by
  induction a generalizing b with
  | nil => cases b with
    | nil => rfl
    | cons y ys => simp at hlen
  | cons x xs ih =>
    cases b with
    | nil => simp at hlen
    | cons y ys =>
      have hxy : x = y := Nat.xor_eq_zero.mp (h (x, y) (by simp [List.zip_cons_cons]))
      have hrest : xs = ys :=
        ih (by simpa using hlen) (fun p hp => h p (by simp [List.zip_cons_cons, hp]))
      rw [hxy, hrest]

theorem fixed_time_eq_iff (a b : List Nat) : fixed_time_eq a b = true ↔ a = b := by
  unfold fixed_time_eq
  split_ifs with hlen
  · simp only [Bool.false_eq_true, false_iff]
    exact fun h => hlen (by rw [h])
  · push_neg at hlen
    rw [beq_iff_eq, foldl_or_xor_eq_zero]
    simp only [true_and]
    constructor
    · intro h2
      exact zip_xor_eq hlen h2
    · intro h2
      subst h2
      exact fun p hp => by rw [mem_zip_self hp, Nat.xor_self]

/-! UTF-8 facts: the byte encoding of strings is injective, so comparing
`as_bytes` of two Rust strings is the same as comparing the strings. -/

theorem char_toNat_lt (c : Char) : c.toNat < 1114112 := by
  have h := c.valid
  rcases h with h | ⟨h1, h2⟩
  · change c.val.toNat < 55296 at h
    change c.val.toNat < 1114112
    omega
  · exact h2

theorem utf8Bytes_ne_nil (c : Char) : utf8Bytes c ≠ [] := by
  simp only [utf8Bytes]
  split_ifs <;> simp

theorem char_toNat_injective {c d : Char} (h : c.toNat = d.toNat) : c = d :=
  Char.ext (UInt32.ext h)

theorem utf8Bytes_inj {c d : Char} (h : utf8Bytes c = utf8Bytes d) : c = d := by
  have hc := char_toNat_lt c
  have hd := char_toNat_lt d
  apply char_toNat_injective
  simp only [utf8Bytes] at h
  split_ifs at h <;> simp only [List.cons.injEq, and_true] at h <;> omega

theorem utf8Bytes_length_eq {c d : Char} (h : (utf8Bytes c).head? = (utf8Bytes d).head?) :
    (utf8Bytes c).length = (utf8Bytes d).length := by
  have hc := char_toNat_lt c
  have hd := char_toNat_lt d
  simp only [utf8Bytes] at h ⊢
  split_ifs at h ⊢ <;> simp_all <;> omega

theorem strBytes_cons (c : Char) (cs : List Char) :
    strBytes (c :: cs) = utf8Bytes c ++ strBytes cs := by
  simp [strBytes]

theorem strBytes_injective {s t : List Char} (h : strBytes s = strBytes t) : s = t := by
  induction s generalizing t with
  | nil =>
    cases t with
    | nil => rfl
    | cons d ds =>
      rw [strBytes_cons] at h
      exact absurd (List.append_eq_nil.mp h.symm).1 (utf8Bytes_ne_nil d)
  | cons c cs ih =>
    cases t with
    | nil =>
      rw [strBytes_cons] at h
      exact absurd (List.append_eq_nil.mp h).1 (utf8Bytes_ne_nil c)
    | cons d ds =>
      rw [strBytes_cons, strBytes_cons] at h
      rcases List.exists_cons_of_ne_nil (utf8Bytes_ne_nil c) with ⟨a, as, ha⟩
      rcases List.exists_cons_of_ne_nil (utf8Bytes_ne_nil d) with ⟨b, bs, hb⟩
      have hab : a = b := by
        have h2 := congrArg List.head? h
        rw [ha, hb] at h2
        simpa using h2
      have hlen := utf8Bytes_length_eq (c := c) (d := d) (by rw [ha, hb]; simp [hab])
      obtain ⟨h1, h2⟩ := List.append_inj h hlen
      rw [utf8Bytes_inj h1, ih h2]

/-- Claim C1: `check_hash` returns `true` exactly when the candidate string
equals the lowercase-hex hash computed by the controller's
`long_token_hashed`; in particular the recomputed hash itself always checks,
and the operation is total (it returns a `Bool` for every candidate string,
with no error path). -/
theorem C1_check_hash_correct {ρ σ : Type} (D : DigestSpec σ)
    (C : PrefixedApiKeyController ρ σ) (k : PrefixedApiKey) (c : List Char) :
    ((PrefixedApiKeyController.check_hash D C k c).1 = true
      ↔ c = (PrefixedApiKeyController.long_token_hashed D C k).1) ∧
    (PrefixedApiKeyController.check_hash D C k
        (PrefixedApiKeyController.long_token_hashed D C k).1).1 = true := by
  constructor
  · show fixed_time_eq _ _ = true ↔ _
    rw [fixed_time_eq_iff]
    constructor
    · intro h
      exact (strBytes_injective h).symm
    · intro h
      rw [h]
  · show fixed_time_eq _ _ = true
    rw [fixed_time_eq_iff]

/-! Base-conversion lemmas for the base58 codec. -/

theorem natDigitsAux_zero (b f : Nat) : natDigitsAux b f 0 = [] := by
  cases f <;> rfl

theorem natDigitsAux_congr {b : Nat} (hb : 2 ≤ b) :
    ∀ (n f₁ f₂ : Nat), n ≤ f₁ → n ≤ f₂ → natDigitsAux b f₁ n = natDigitsAux b f₂ n := by
  intro n
  induction n using Nat.strong_induction_on with
  | _ n ih =>
    intro f₁ f₂ h₁ h₂
    cases n with
    | zero => rw [natDigitsAux_zero, natDigitsAux_zero]
    | succ m =>
      cases f₁ with
      | zero => omega
      | succ g₁ =>
        cases f₂ with
        | zero => omega
        | succ g₂ =>
          simp only [natDigitsAux]
          have hdiv : (m + 1) / b < m + 1 := Nat.div_lt_self (Nat.succ_pos m) hb
          exact congrArg _ (ih ((m + 1) / b) hdiv g₁ g₂ (by omega) (by omega))

theorem natDigits_succ_eq {b : Nat} (hb : 2 ≤ b) (m : Nat) :
    natDigits b (m + 1) = (m + 1) % b :: natDigits b ((m + 1) / b) := by
  show natDigitsAux b (m + 1) (m + 1) = _
  simp only [natDigitsAux]
  have hdiv : (m + 1) / b < m + 1 := Nat.div_lt_self (Nat.succ_pos m) hb
  exact congrArg _ (natDigitsAux_congr hb ((m + 1) / b) m ((m + 1) / b) (by omega) (by omega))

theorem natDigits_lt {b : Nat} (hb : 2 ≤ b) : ∀ n, ∀ d ∈ natDigits b n, d < b := by
  intro n
  induction n using Nat.strong_induction_on with
  | _ n ih =>
    intro d hd
    cases n with
    | zero => simp [natDigits, natDigitsAux_zero] at hd
    | succ m =>
      rw [natDigits_succ_eq hb] at hd
      rcases List.mem_cons.mp hd with h | h
      · rw [h]
        exact Nat.mod_lt _ (by omega)
      · exact ih ((m + 1) / b) (Nat.div_lt_self (Nat.succ_pos m) hb) d h

theorem foldl_horner (b : Nat) : ∀ (l : List Nat) (acc : Nat),
    l.foldl (fun acc d => acc * b + d) acc
      = acc * b ^ l.length + l.foldl (fun acc d => acc * b + d) 0 := by
  intro l
  induction l with
  | nil => intro acc; simp
  | cons h t ih =>
    intro acc
    simp only [List.foldl_cons, List.length_cons]
    rw [ih (acc * b + h), ih (0 * b + h)]
    ring

theorem beVal_cons (b h : Nat) (t : List Nat) :
    beVal b (h :: t) = h * b ^ t.length + beVal b t := by
  simp only [beVal, List.foldl_cons]
  rw [foldl_horner]
  ring_nf

theorem beVal_append (b x : Nat) (l : List Nat) :
    beVal b (l ++ [x]) = beVal b l * b + x := by
  simp [beVal, List.foldl_append]

theorem beVal_all_zero {b : Nat} : ∀ {zs : List Nat}, (∀ x ∈ zs, x = 0) → beVal b zs = 0 := by
  intro zs
  induction zs with
  | nil => intro _; rfl
  | cons z t ih =>
    intro h
    have hz : z = 0 := h z (List.mem_cons_self z t)
    have ht := ih (fun x hx => h x (List.mem_cons_of_mem z hx))
    rw [beVal_cons, hz, ht]
    simp

theorem beVal_zeros_append {b : Nat} {zs l : List Nat} (h : ∀ x ∈ zs, x = 0) :
    beVal b (zs ++ l) = beVal b l := by
  have hz := beVal_all_zero (b := b) h
  simp only [beVal, List.foldl_append] at *
  rw [hz]

theorem beVal_natDigits {b : Nat} (hb : 2 ≤ b) : ∀ n, beVal b ((natDigits b n).reverse) = n := by
  intro n
  induction n using Nat.strong_induction_on with
  | _ n ih =>
    cases n with
    | zero => rfl
    | succ m =>
      rw [natDigits_succ_eq hb, List.reverse_cons, beVal_append]
      have hdiv : (m + 1) / b < m + 1 := Nat.div_lt_self (Nat.succ_pos m) hb
      rw [ih _ hdiv, Nat.mul_comm]
      exact Nat.div_add_mod (m + 1) b

theorem lt_pow_natDigits {b : Nat} (hb : 2 ≤ b) : ∀ n, n < b ^ (natDigits b n).length := by
  intro n
  induction n using Nat.strong_induction_on with
  | _ n ih =>
    cases n with
    | zero => simp [natDigits, natDigitsAux_zero]
    | succ m =>
      rw [natDigits_succ_eq hb]
      simp only [List.length_cons]
      have hdiv : (m + 1) / b < m + 1 := Nat.div_lt_self (Nat.succ_pos m) hb
      have ihq := ih ((m + 1) / b) hdiv
      have hmod : (m + 1) % b < b := Nat.mod_lt _ (by omega)
      have hdm := Nat.div_add_mod (m + 1) b
      calc m + 1 = b * ((m + 1) / b) + (m + 1) % b := hdm.symm
        _ < b * ((m + 1) / b) + b := by omega
        _ = b * ((m + 1) / b + 1) := by ring
        _ ≤ b * b ^ (natDigits b ((m + 1) / b)).length := Nat.mul_le_mul_left b ihq
        _ = b ^ ((natDigits b ((m + 1) / b)).length + 1) := by rw [pow_succ]; ring

theorem natDigits_reverse_head {b : Nat} (hb : 2 ≤ b) :
    ∀ n, n ≠ 0 → ∃ d t, (natDigits b n).reverse = d :: t ∧ d ≠ 0 := by
  intro n
  induction n using Nat.strong_induction_on with
  | _ n ih =>
    intro hn
    cases n with
    | zero => exact absurd rfl hn
    | succ m =>
      rw [natDigits_succ_eq hb, List.reverse_cons]
      by_cases hq : (m + 1) / b = 0
      · have hdz : natDigits b ((m + 1) / b) = [] := by rw [hq]; rfl
        have hmod : (m + 1) % b = m + 1 := by
          have := Nat.div_add_mod (m + 1) b
          rw [hq] at this
          omega
        rw [hdz, List.reverse_nil, List.nil_append]
        exact ⟨(m + 1) % b, [], rfl, by omega⟩
      · have hdiv : (m + 1) / b < m + 1 := Nat.div_lt_self (Nat.succ_pos m) hb
        obtain ⟨d, t, ht, hd⟩ := ih ((m + 1) / b) hdiv hq
        exact ⟨d, t ++ [(m + 1) % b], by rw [ht]; rfl, hd⟩

theorem natDigits_pos_eq {b : Nat} (hb : 2 ≤ b) {n : Nat} (hn : n ≠ 0) :
    natDigits b n = n % b :: natDigits b (n / b) := by
  cases n with
  | zero => exact absurd rfl hn
  | succ m => exact natDigits_succ_eq hb m

theorem natDigits_beVal {b : Nat} (hb : 2 ≤ b) :
    ∀ (l : List Nat), (∀ x ∈ l, x < b) → (∀ h t, l = h :: t → h ≠ 0) →
    (natDigits b (beVal b l)).reverse = l := by
  intro l
  induction l using List.reverseRecOn with
  | nil => intro _ _; rfl
  | append_singleton l x ihl =>
    intro hlt hhead
    have hx : x < b := hlt x (by simp)
    cases l with
    | nil =>
      have hxne : x ≠ 0 := hhead x [] rfl
      have hbv : beVal b ([] ++ [x]) = x := by simp [beVal]
      rw [hbv, natDigits_pos_eq hb hxne, Nat.mod_eq_of_lt hx, Nat.div_eq_of_lt hx]
      rfl
    | cons h t =>
      have hh : h ≠ 0 := hhead h (t ++ [x]) (by simp)
      have hbp : 0 < b ^ t.length := pow_pos (by omega) t.length
      have hqpos : 0 < beVal b (h :: t) := by
        have hc := beVal_cons b h t
        have hmp : 0 < h * b ^ t.length := Nat.mul_pos (by omega) hbp
        omega
      rw [beVal_append]
      have hn : beVal b (h :: t) * b + x ≠ 0 := by
        have : 0 < beVal b (h :: t) * b := Nat.mul_pos hqpos (by omega)
        omega
      have hmod : (beVal b (h :: t) * b + x) % b = x := by
        have h1 : beVal b (h :: t) * b + x = b * beVal b (h :: t) + x := by ring
        rw [h1, Nat.mul_add_mod, Nat.mod_eq_of_lt hx]
      have hdiv2 : (beVal b (h :: t) * b + x) / b = beVal b (h :: t) := by
        have h1 : beVal b (h :: t) * b + x = b * beVal b (h :: t) + x := by ring
        rw [h1, Nat.mul_add_div (by omega), Nat.div_eq_of_lt hx, Nat.add_zero]
      rw [natDigits_pos_eq hb hn, hmod, hdiv2, List.reverse_cons]
      rw [ihl (fun y hy => hlt y
          (by simp only [List.mem_cons, List.mem_append] at hy ⊢; tauto))
        (fun h' t' he => by injection he with e1 e2; exact e1 ▸ hh)]

/-! Alphabet and codec lemmas. -/

theorem b58_index_digit : ∀ d < 58, b58CharIndex (BASE58_ALPHABET[d]!) = some d := by decide

theorem b58_alphabet_zero : BASE58_ALPHABET[(0 : Nat)]! = '1' := by decide

theorem mapM_map_of_index {α β : Type} (f : β → Option α) (h : α → β) :
    ∀ (l : List α), (∀ x ∈ l, f (h x) = some x) → (l.map h).mapM f = some l := by
  intro l
  induction l with
  | nil => intro _; rfl
  | cons x xs ih =>
    intro hx
    rw [List.map_cons, List.mapM_cons, hx x (List.mem_cons_self x xs),
      ih (fun y hy => hx y (List.mem_cons_of_mem x hy))]
    rfl

theorem dropWhile_cons_not {α : Type} (p : α → Bool) :
    ∀ (l : List α) (h : α) (t : List α), l.dropWhile p = h :: t → p h = false := by
  intro l
  induction l with
  | nil =>
    intro h t he
    simp [List.dropWhile] at he
  | cons x xs ih =>
    intro h t he
    rw [List.dropWhile_cons] at he
    split_ifs at he with hx
    · exact ih h t he
    · injection he with e1 e2
      cases hpx : p x with
      | false => exact e1 ▸ hpx
      | true => exact absurd hpx hx

theorem takeWhile_zero_replicate :
    ∀ z, (List.replicate z (0 : Nat)).takeWhile (· == 0) = List.replicate z 0 := by
  intro z
  induction z with
  | zero => rfl
  | succ k ih => simp [List.replicate_succ, List.takeWhile_cons, ih]

theorem takeWhile_zero_replicate_append {dt : List Nat} {d : Nat} (hd : d ≠ 0) :
    ∀ z, (List.replicate z 0 ++ d :: dt).takeWhile (· == 0) = List.replicate z 0 := by
  intro z
  induction z with
  | zero => simp [List.takeWhile_cons, hd]
  | succ k ih => simp [List.replicate_succ, List.takeWhile_cons, ih]

theorem bs58_encode_as_map (bytes : List Nat) :
    bs58_encode bytes
      = (List.replicate (bytes.takeWhile (· == 0)).length 0
          ++ (natDigits 58 (beVal 256 bytes)).reverse).map
            (fun d => BASE58_ALPHABET[d]!) := by
  simp only [bs58_encode, List.map_append, List.map_replicate, b58_alphabet_zero]

theorem bs58_encode_length (bytes : List Nat) :
    bytes.length ≤ (bs58_encode bytes).length := by
  have hsplit := List.takeWhile_append_dropWhile (fun x => x == 0) bytes
  have htw_zero : ∀ x ∈ bytes.takeWhile (· == 0), x = 0 := fun x hx => by
    simpa using List.mem_takeWhile_imp hx
  have hval : beVal 256 bytes = beVal 256 (bytes.dropWhile (· == 0)) := by
    calc beVal 256 bytes
        = beVal 256 (bytes.takeWhile (· == 0) ++ bytes.dropWhile (· == 0)) := by rw [hsplit]
      _ = beVal 256 (bytes.dropWhile (· == 0)) := beVal_zeros_append htw_zero
  have hblen : bytes.length
      = (bytes.takeWhile (· == 0)).length + (bytes.dropWhile (· == 0)).length := by
    conv_lhs => rw [← hsplit]
    rw [List.length_append]
  rw [bs58_encode_as_map, List.length_map, List.length_append, List.length_replicate,
    List.length_reverse, hval]
  cases hdw : bytes.dropWhile (· == 0) with
  | nil =>
    rw [hdw] at hblen
    rw [show beVal 256 ([] : List Nat) = 0 from rfl, show natDigits 58 0 = [] from rfl]
    simp at hblen ⊢
    omega
  | cons h t =>
    have hh : h ≠ 0 := by
      have := dropWhile_cons_not (· == 0) bytes h t hdw
      simpa using this
    rw [hdw] at hblen
    have hlow : 256 ^ t.length ≤ beVal 256 (h :: t) := by
      rw [beVal_cons]
      have h1 : 1 * 256 ^ t.length ≤ h * 256 ^ t.length :=
        Nat.mul_le_mul_right _ (by omega)
      omega
    have hup := lt_pow_natDigits (b := 58) (by omega) (beVal 256 (h :: t))
    by_contra hcon
    push_neg at hcon
    have hdlen : (natDigits 58 (beVal 256 (h :: t))).length ≤ t.length := by
      simp only [List.length_cons] at hblen
      omega
    have h58 : (58 : Nat) ^ (natDigits 58 (beVal 256 (h :: t))).length
        ≤ 58 ^ t.length := Nat.pow_le_pow_right (by omega) hdlen
    have h256 : (58 : Nat) ^ t.length ≤ 256 ^ t.length :=
      Nat.pow_le_pow_left (by omega) _
    omega

theorem bs58_decode_encode {bytes : List Nat} (hlt : ∀ x ∈ bytes, x < 256) :
    bs58_decode (bs58_encode bytes) = some bytes := by
  have hsplit := List.takeWhile_append_dropWhile (fun x => x == 0) bytes
  have htw_zero : ∀ x ∈ bytes.takeWhile (· == 0), x = 0 := fun x hx => by
    simpa using List.mem_takeWhile_imp hx
  have htw_rep : bytes.takeWhile (· == 0)
      = List.replicate (bytes.takeWhile (· == 0)).length 0 :=
    List.eq_replicate.mpr ⟨rfl, htw_zero⟩
  have hval : beVal 256 bytes = beVal 256 (bytes.dropWhile (· == 0)) := by
    calc beVal 256 bytes
        = beVal 256 (bytes.takeWhile (· == 0) ++ bytes.dropWhile (· == 0)) := by rw [hsplit]
      _ = beVal 256 (bytes.dropWhile (· == 0)) := beVal_zeros_append htw_zero
  have hd58 : ∀ d ∈ List.replicate (bytes.takeWhile (· == 0)).length 0
      ++ (natDigits 58 (beVal 256 bytes)).reverse, d < 58 := by
    intro d hd
    rcases List.mem_append.mp hd with h | h
    · rw [List.eq_of_mem_replicate h]; omega
    · exact natDigits_lt (by omega) _ d (List.mem_reverse.mp h)
  have hmapM : (bs58_encode bytes).mapM b58CharIndex
      = some (List.replicate (bytes.takeWhile (· == 0)).length 0
          ++ (natDigits 58 (beVal 256 bytes)).reverse) := by
    rw [bs58_encode_as_map]
    exact mapM_map_of_index b58CharIndex _ _ (fun x hx => b58_index_digit x (hd58 x hx))
  unfold bs58_decode
  rw [hmapM, Option.map_some']
  cases hdw : bytes.dropWhile (· == 0) with
  | nil =>
    have hbytes : bytes = List.replicate (bytes.takeWhile (· == 0)).length 0 := by
      conv_lhs => rw [← hsplit]
      rw [hdw, List.append_nil, ← htw_rep]
    rw [hval, hdw]
    rw [show beVal 256 ([] : List Nat) = 0 from rfl]
    rw [show natDigits 58 0 = [] from rfl, List.reverse_nil, List.append_nil,
      takeWhile_zero_replicate, List.length_replicate]
    rw [show beVal 58 (List.replicate (bytes.takeWhile (· == 0)).length 0) = 0 from
      beVal_all_zero (fun x hx => List.eq_of_mem_replicate hx)]
    rw [show natDigits 256 0 = [] from rfl, List.reverse_nil, List.append_nil]
    rw [← hbytes]
  | cons h t =>
    have hh : h ≠ 0 := by
      have := dropWhile_cons_not (· == 0) bytes h t hdw
      simpa using this
    have hdw_lt : ∀ x ∈ bytes.dropWhile (· == 0), x < 256 := fun x hx =>
      hlt x (by rw [← hsplit]; exact List.mem_append_right _ hx)
    have hnz : beVal 256 (bytes.dropWhile (· == 0)) ≠ 0 := by
      rw [hdw, beVal_cons]
      have hbp : 0 < (256 : Nat) ^ t.length := pow_pos (by omega) t.length
      have hmp : 0 < h * 256 ^ t.length := Nat.mul_pos (by omega) hbp
      omega
    obtain ⟨d, dt, hdt, hdne⟩ := natDigits_reverse_head (b := 58) (by omega) _ hnz
    rw [hval, hdt, takeWhile_zero_replicate_append hdne, List.length_replicate]
    rw [show beVal 58 (List.replicate (bytes.takeWhile (· == 0)).length 0 ++ d :: dt)
        = beVal 58 (d :: dt) from
      beVal_zeros_append (fun x hx => List.eq_of_mem_replicate hx)]
    rw [← hdt, beVal_natDigits (by omega)]
    rw [natDigits_beVal (by omega) _ hdw_lt
      (fun h' t' he => by rw [hdw] at he; injection he with e1 _; exact e1 ▸ hh)]
    rw [← htw_rep, hsplit]

/-! Shape of `generate_key`'s output tokens. -/

theorem generate_key_short_token_some {ρ σ : Type} (R : RngSpec ρ)
    (C : PrefixedApiKeyController ρ σ) (p : List Char) (hp : C.short_token_pfx = some p) :
    (PrefixedApiKeyController.generate_key R C).1.short_token
      = (p ++ bs58_encode (R.fill_bytes C.rng C.short_token_length).1).take
          C.short_token_length := by
  simp [PrefixedApiKeyController.generate_key, PrefixedApiKeyController.get_random_token,
    PrefixedApiKeyController.get_random_bytes, PrefixedApiKey.new, hp]

theorem generate_key_short_token_none {ρ σ : Type} (R : RngSpec ρ)
    (C : PrefixedApiKeyController ρ σ) (hp : C.short_token_pfx = none) :
    (PrefixedApiKeyController.generate_key R C).1.short_token
      = bs58_encode (R.fill_bytes C.rng C.short_token_length).1 := by
  simp [PrefixedApiKeyController.generate_key, PrefixedApiKeyController.get_random_token,
    PrefixedApiKeyController.get_random_bytes, PrefixedApiKey.new, hp]

theorem generate_key_long_token {ρ σ : Type} (R : RngSpec ρ)
    (C : PrefixedApiKeyController ρ σ) :
    (PrefixedApiKeyController.generate_key R C).1.long_token
      = bs58_encode
          (R.fill_bytes (R.fill_bytes C.rng C.short_token_length).2 C.long_token_length).1 :=
  rfl

/-- Counterexample to claim C5 as stated: with no short token prefix
configured and `short_token_length = 8`, drawing the bytes `0xFF × 8` yields a
short token of 11 characters (the bare base58 encoding of the 8 bytes), not 8. -/
theorem C5_length_contract_counterexample :
    (PrefixedApiKeyController.new (ρ := Unit) (σ := Unit)
        ['m'] () () none 8 24).short_token_length = 8 ∧
    ((PrefixedApiKeyController.generate_key constRng
        (PrefixedApiKeyController.new ['m'] () () none 8 24)).1.short_token).length = 11 := by
  constructor
  · rfl
  · rfl

/-- Claim C5 (amended): the long token always base58-decodes back to exactly
`long_token_length` bytes; the short token has exactly `short_token_length`
characters whenever a short token prefix is configured, while with no short
token prefix it is the unmodified base58 encoding of `short_token_length`
random bytes, whose character length is at least — but in general not equal
to — `short_token_length`. -/
theorem C5_length_contract_amended {ρ σ : Type} (R : RngSpec ρ)
    (C : PrefixedApiKeyController ρ σ) :
    (∃ bs, bs58_decode ((PrefixedApiKeyController.generate_key R C).1.long_token) = some bs
        ∧ bs.length = C.long_token_length) ∧
    (∀ p, C.short_token_pfx = some p →
      ((PrefixedApiKeyController.generate_key R C).1.short_token).length
        = C.short_token_length) ∧
    (C.short_token_pfx = none →
      (PrefixedApiKeyController.generate_key R C).1.short_token
          = bs58_encode (R.fill_bytes C.rng C.short_token_length).1
        ∧ C.short_token_length
          ≤ ((PrefixedApiKeyController.generate_key R C).1.short_token).length) := by
  have henc : C.short_token_length
      ≤ (bs58_encode (R.fill_bytes C.rng C.short_token_length).1).length := by
    have h := bs58_encode_length (R.fill_bytes C.rng C.short_token_length).1
    rw [R.fill_len] at h
    exact h
  refine ⟨?_, ?_, ?_⟩
  · rw [generate_key_long_token]
    exact ⟨_, bs58_decode_encode (fun x hx => R.fill_lt _ _ x hx), R.fill_len _ _⟩
  · intro p hp
    rw [generate_key_short_token_some R C p hp, List.length_take, List.length_append]
    omega
  · intro hp
    refine ⟨generate_key_short_token_none R C hp, ?_⟩
    rw [generate_key_short_token_none R C hp]
    exact henc

/-- Witness for the amended C5 at concrete controllers (one with a short
token prefix, one without). -/
theorem C5_length_contract_amended_witness :
    ((PrefixedApiKeyController.generate_key constRng
        (PrefixedApiKeyController.new ['m'] () () (some ['a', 'b']) 8 24)).1.short_token).length
      = 8 ∧
    (8 : Nat) ≤ ((PrefixedApiKeyController.generate_key constRng
        (PrefixedApiKeyController.new ['m'] () () none 8 24)).1.short_token).length := by
  constructor
  · exact (C5_length_contract_amended constRng
      (PrefixedApiKeyController.new ['m'] () () (some ['a', 'b']) 8 24)).2.1 ['a', 'b'] rfl
  · exact ((C5_length_contract_amended constRng
      (PrefixedApiKeyController.new ['m'] () () none 8 24)).2.2 rfl).2

/-- Claim C6: with a short token prefix configured, the short token is the
concatenation of that prefix and the encoded randomness truncated to exactly
`short_token_length` characters; when the configured prefix is at least that
long, the whole short token is the truncated prefix, whatever bytes were
drawn. -/
theorem C6_short_token_pfx_truncation {ρ σ : Type} (R : RngSpec ρ)
    (C : PrefixedApiKeyController ρ σ) (p : List Char) (hp : C.short_token_pfx = some p) :
    (PrefixedApiKeyController.generate_key R C).1.short_token
        = (p ++ bs58_encode (R.fill_bytes C.rng C.short_token_length).1).take
            C.short_token_length ∧
    ((PrefixedApiKeyController.generate_key R C).1.short_token).length
        = C.short_token_length ∧
    (C.short_token_length ≤ p.length →
      (PrefixedApiKeyController.generate_key R C).1.short_token
        = p.take C.short_token_length) := by
  have henc : C.short_token_length
      ≤ (bs58_encode (R.fill_bytes C.rng C.short_token_length).1).length := by
    have h := bs58_encode_length (R.fill_bytes C.rng C.short_token_length).1
    rw [R.fill_len] at h
    exact h
  refine ⟨generate_key_short_token_some R C p hp, ?_, ?_⟩
  · rw [generate_key_short_token_some R C p hp, List.length_take, List.length_append]
    omega
  · intro hle
    rw [generate_key_short_token_some R C p hp, List.take_append_eq_append_take,
      Nat.sub_eq_zero_of_le hle]
    simp

/-- Witness for C6: with short token prefix `"aaaaaaaa"` and length 8 the
short token is exactly `"aaaaaaaa"`, whatever the rng produced. -/
theorem C6_short_token_pfx_truncation_witness :
    (PrefixedApiKeyController.generate_key constRng
        (PrefixedApiKeyController.new ['m'] () ()
          (some (List.replicate 8 'a')) 8 24)).1.short_token
      = List.replicate 8 'a' := by
  have h := (C6_short_token_pfx_truncation constRng
    (PrefixedApiKeyController.new ['m'] () () (some (List.replicate 8 'a')) 8 24)
    (List.replicate 8 'a') rfl).2.2 (by decide)
  rw [h]
  simp [PrefixedApiKeyController.new, List.take_replicate]
